import Mathlib

/-!
Verification of the prompt-builder editing core (src/unnamed/part_000,
compiled as src/index.js): the ordered component list, the drag-and-drop
reorder/insert algorithm, the variable-detection/substitution engine and
the template store.

Modelling conventions, stated once:
* Text is `List Char`.  JavaScript string literals appear via `.data`.
* JavaScript's insertion-ordered string-keyed objects (`state.variables`)
  are association lists `List (List Char × List Char)`; `for (const k in o)`
  iterates in insertion order, which the association-list fold mirrors.
* `Array.prototype.splice(i, 1)` is `List.eraseIdx i`;
  `splice(i, 0, x)` clamps `i` to the length, hence `spliceInsert`.
* `Date.now()` id generation is modelled by an explicit `newId : Nat`
  argument at each creation site; nothing forces distinct arguments,
  exactly as nothing forces distinct clock readings.
* `JSON.parse(JSON.stringify(xs))` on component arrays is the structural
  clone `deepCopy`.
* `String.prototype.replace(regex, value)` with the pattern
  `new RegExp('\\[' + key + '\\]', 'g')` scans for the pattern
  (detected keys match `[A-Z_]+`, so the pattern has no metacharacters)
  and inserts the replacement string with JavaScript's GetSubstitution
  expansion of dollar escapes — `$$`, `$&`, dollar-backquote,
  dollar-quote, and `$1`/`$01` for the single capture group; an invalid
  escape stays literal (`replaceDollar`, `expandRep`).
* `String.prototype.trim` is `trimChars` over `Char.isWhitespace`.
-/

namespace PromptBuilder

/-- One content block, from the `Component` type of the source: `id` and
`type` always present, `content` (heading, text-block) and `key`/`value`
(key-value) optional. -/
structure Component where
  id : Nat
  kind : String
  content : Option (List Char) := none
  key : Option (List Char) := none
  value : Option (List Char) := none
deriving DecidableEq, Repr

/-- A saved template, from the `Template` type of the source. -/
structure Template where
  id : Nat
  name : List Char
  components : List Component
deriving DecidableEq, Repr

/-- The session variable mapping `state.variables`: an insertion-ordered
string map, modelled as an association list. -/
abbrev VarMap := List (List Char × List Char)

/-- The application state of the source (`AppState`); the field `vars`
models `state.variables` (the name `variables` is reserved in Lean). -/
structure AppState where
  components : List Component
  templates : List Template
  vars : VarMap
deriving DecidableEq, Repr

/-- Factory `createNewComponent` of the source: a fresh record with the
given kind, default content for the three recognized kinds, and no content
fields at all for any other kind string.  `newId` stands for `Date.now()`. -/
def createNewComponent (kind : String) (newId : Nat) : Component :=
  if kind = "heading" then
    { id := newId, kind := kind, content := some "New Heading".data }
  else if kind = "text-block" then
    { id := newId, kind := kind,
      content := some "This is a new text block. You can use variables like [TOPIC].".data }
  else if kind = "key-value" then
    { id := newId, kind := kind, key := some "Key".data, value := some "[VALUE]".data }
  else
    { id := newId, kind := kind }

/-- JavaScript `splice(n, 0, a)`: insertion with the index clamped to the
array length, so an out-of-range index appends at the end. -/
def spliceInsert (l : List Component) (n : Nat) (a : Component) : List Component :=
  l.insertIdx (min n l.length) a

/-- The reordering branch of the drop handler: normalize the raw target
index (decrement when the removal at `fromIdx` shifts it), do nothing when
it equals `fromIdx`, otherwise splice the element out and back in. -/
def moveWithinList (l : List Component) (fromIdx rawTo : Nat) : List Component :=
  let toIdx := if fromIdx < rawTo then rawTo - 1 else rawTo
  if fromIdx = toIdx then l
  else
    match l[fromIdx]? with
    | some c => spliceInsert (l.eraseIdx fromIdx) toIdx c
    | none => l

/-- The drop handler of the source, without its DOM bookkeeping: either a
reorder of the element at `draggedIdx`, or, when no element is being
dragged and the plain-text payload is non-empty, insertion of a freshly
created component at the placeholder position (end of list when there is
no placeholder), or a no-op. -/
def handleDrop (comps : List Component) (draggedIdx : Option Nat) (payload : String)
    (placeholderIdx : Option Nat) (newId : Nat) : List Component :=
  match draggedIdx with
  | some fromIdx => moveWithinList comps fromIdx (placeholderIdx.getD comps.length)
  | none =>
      if payload = "" then comps
      else spliceInsert comps (placeholderIdx.getD comps.length)
        (createNewComponent payload newId)

/-- The component-removal click handler: `filter(c => c.id != id)`. -/
def removeById (l : List Component) (cid : Nat) : List Component :=
  l.filter (fun c => c.id ≠ cid)

/-- Field assignment `component[property] = value` for the three content
properties; any other property name leaves the record alone. -/
def setProp (c : Component) (prop : String) (v : List Char) : Component :=
  if prop = "content" then { c with content := some v }
  else if prop = "key" then { c with key := some v }
  else if prop = "value" then { c with value := some v }
  else c

/-- The input handler of the source: find the first component with the
given id and, when the property is one of `content`, `key`, `value`, set
it in place; otherwise change nothing.  The component's kind is not
consulted. -/
def updateField (l : List Component) (cid : Nat) (prop : String) (v : List Char) :
    List Component :=
  match l with
  | [] => []
  | c :: rest =>
      if c.id = cid then
        (if prop = "content" ∨ prop = "key" ∨ prop = "value" then setProp c prop v else c)
          :: rest
      else c :: updateField rest cid prop v

/-- Character class of the capture group of the detection regex
`/\[([A-Z_]+)\]/g`: uppercase ASCII letters and underscore. -/
def isVarChar (c : Char) : Bool :=
  ('A' ≤ c && c ≤ 'Z') || c = '_'

/-- Left-to-right scan of one text for matches of `/\[([A-Z_]+)\]/g`,
returning the captured names in match order, structurally recursive on a
fuel bound on the text length.  At an opening bracket the scanner takes
the maximal run of variable characters; the match succeeds exactly when
the run is non-empty and is followed immediately by a closing bracket, in
which case scanning resumes after that bracket, and otherwise the scan
resumes right after the opening bracket, as the regex engine retries from
the next position. -/
def findVarsAux : Nat → List Char → List (List Char)
  | 0, _ => []
  | _ + 1, [] => []
  | fuel + 1, c :: rest =>
      if c = '[' then
        let run := rest.takeWhile isVarChar
        if run ≠ [] ∧ (rest.drop run.length).head? = some ']' then
          run :: findVarsAux fuel (rest.drop (run.length + 1))
        else findVarsAux fuel rest
      else findVarsAux fuel rest

/-- The scan of `findVarsAux` with enough fuel for the whole text. -/
def findVars (t : List Char) : List (List Char) :=
  findVarsAux t.length t

/-- Insertion into a JavaScript `Set`: append if not already present. -/
def insertOnce (acc : List (List Char)) (x : List Char) : List (List Char) :=
  if x ∈ acc then acc else acc ++ [x]

/-- Contents of a JavaScript `Set` fed a list of elements in order: each
distinct element once, in order of first appearance. -/
def dedupFirst (l : List (List Char)) : List (List Char) :=
  l.foldl insertOnce []

/-- Per-component rendering of `updatePreviewAndVariables`: heading as
a hash-space prefix plus content and a blank line, text-block as content
plus a blank line, key-value as key, colon-space, value and one newline,
and the empty text for any other kind (no switch case matches).  A missing
content field interpolates as the text `undefined`, as in a JavaScript
template literal. -/
def renderComponent (c : Component) : List Char :=
  if c.kind = "heading" then
    "# ".data ++ (c.content.getD "undefined".data) ++ "\n\n".data
  else if c.kind = "text-block" then
    (c.content.getD "undefined".data) ++ "\n\n".data
  else if c.kind = "key-value" then
    (c.key.getD "undefined".data) ++ ": ".data ++ (c.value.getD "undefined".data) ++ "\n".data
  else []

/-- The forEach loop of `updatePreviewAndVariables`: accumulates the
concatenated rendered text and, per component, the regex matches of that
component's own rendered text, in order. -/
def scanComponents : List Component → List Char × List (List Char)
  | [] => ([], [])
  | c :: rest =>
      (renderComponent c ++ (scanComponents rest).1,
       findVars (renderComponent c) ++ (scanComponents rest).2)

/-- The concatenated rendered text `fullText` of the source. -/
def fullText (comps : List Component) : List Char :=
  (scanComponents comps).1

/-- The detected variable names: the per-component matches accumulated
into a `Set`, read back in insertion order (`Array.from`). -/
def detectedVars (comps : List Component) : List (List Char) :=
  dedupFirst (scanComponents comps).2

/-- The backquote character, written by code point to keep it out of the
source text. -/
def backquoteChar : Char := Char.ofNat 96

/-- JavaScript's GetSubstitution expansion of a string replacement value,
specialized to the substitution regex, which has exactly one capture
group: walk the replacement text; a dollar sign followed by another
dollar sign yields a dollar sign, followed by an ampersand yields the
matched text, followed by a backquote yields the portion of the subject
before the match, followed by a quote yields the portion after the match,
and the digit forms `1` (not followed by a digit) and `01` yield the
capture; every other dollar sequence is kept literally.  Structurally
recursive on a fuel bound on the replacement length. -/
def expandRepAux (matched cap bf af : List Char) : Nat → List Char → List Char
  | 0, rep => rep
  | _ + 1, [] => []
  | fuel + 1, c :: rest =>
      if c = '$' then
        match rest with
        | [] => ['$']
        | d :: r =>
            if d = '$' then '$' :: expandRepAux matched cap bf af fuel r
            else if d = '&' then matched ++ expandRepAux matched cap bf af fuel r
            else if d = backquoteChar then bf ++ expandRepAux matched cap bf af fuel r
            else if d = '\'' then af ++ expandRepAux matched cap bf af fuel r
            else if d = '0' then
              match r with
              | '1' :: r2 => cap ++ expandRepAux matched cap bf af fuel r2
              | _ => '$' :: expandRepAux matched cap bf af fuel rest
            else if d = '1' then
              match r with
              | d2 :: _ =>
                  if d2.isDigit then '$' :: expandRepAux matched cap bf af fuel rest
                  else cap ++ expandRepAux matched cap bf af fuel r
              | [] => cap ++ expandRepAux matched cap bf af fuel r
            else '$' :: expandRepAux matched cap bf af fuel rest
      else c :: expandRepAux matched cap bf af fuel rest

/-- The expansion scan with enough fuel for the whole replacement. -/
def expandRep (matched cap bf af rep : List Char) : List Char :=
  expandRepAux matched cap bf af rep.length rep

/-- The global replacement scan of `String.prototype.replace` with a
string replacement value: find each non-overlapping occurrence of the
pattern left to right and insert the expansion of the replacement for
that match, whose before and after portions are taken from the subject
string (`pre` accumulates the part already passed).  Structurally
recursive on a fuel bound on the text length. -/
def substAux : Nat → List Char → List Char → List Char → List Char → List Char → List Char
  | 0, _, t, _, _, _ => t
  | _ + 1, _, [], _, _, _ => []
  | fuel + 1, pre, c :: rest, pat, cap, rep =>
      if pat ≠ [] ∧ pat.isPrefixOf (c :: rest) then
        expandRep pat cap pre (rest.drop (pat.length - 1)) rep
          ++ substAux fuel (pre ++ pat) (rest.drop (pat.length - 1)) pat cap rep
      else c :: substAux fuel (pre ++ [c]) rest pat cap rep

/-- The replacement scan with enough fuel for the whole text, starting
with an empty consumed prefix. -/
def replaceDollar (t pat cap rep : List Char) : List Char :=
  substAux t.length [] t pat cap rep

/-- The bracketed placeholder token of a variable name. -/
def brack (name : List Char) : List Char :=
  '[' :: name ++ [']']

/-- One iteration of the substitution loop,
`previewText.replace(regex, value || placeholder)`: the replacement
string is the stored value when non-empty (the empty string is falsy, so
`value || placeholder` then yields the placeholder token itself), and
JavaScript expands dollar escapes in it at every match; the single
capture group of the regex is the variable name. -/
def applyVar (t : List Char) (kv : List Char × List Char) : List Char :=
  replaceDollar t (brack kv.1) kv.1 (if kv.2 = [] then brack kv.1 else kv.2)

/-- The substitution pass: fold the loop body over the stored variable
mapping in insertion order. -/
def substituteVars (vars : VarMap) (t : List Char) : List Char :=
  vars.foldl applyVar t

/-- String.prototype.trim: drop whitespace from both ends. -/
def trimChars (t : List Char) : List Char :=
  ((t.dropWhile Char.isWhitespace).reverse.dropWhile Char.isWhitespace).reverse

/-- Association-list lookup, the model of `hasOwnProperty` plus property
read on `state.variables`. -/
def lookupVar : VarMap → List Char → Option (List Char)
  | [], _ => none
  | (k, v) :: rest, key => if k = key then some v else lookupVar rest key

/-- The defaulting loop of `renderVariableInputs`: for each detected name
without a stored entry, add an entry with the empty value; existing
entries are untouched and new keys land at the end, as in a JavaScript
object. -/
def ensureVars (vars : VarMap) (names : List (List Char)) : VarMap :=
  names.foldl (fun vs n => if (lookupVar vs n).isSome then vs else vs ++ [(n, [])]) vars

/-- Assignment `state.variables[name] = v`: update in place when the key
exists, append otherwise. -/
def setVar : VarMap → List Char → List Char → VarMap
  | [], k, v => [(k, v)]
  | (k1, v1) :: rest, k, v =>
      if k1 = k then (k1, v) :: rest else (k1, v1) :: setVar rest k v

/-- The whole of `updatePreviewAndVariables`: scan, default new variables
to the empty value, then substitute over the updated mapping and trim.
Returns the updated mapping and the preview text. -/
def updatePreviewAndVariables (comps : List Component) (vars : VarMap) :
    VarMap × List Char :=
  let vars2 := ensureVars vars (detectedVars comps)
  (vars2, trimChars (substituteVars vars2 (fullText comps)))

/-- Structural clone of one component, the model of its round trip
through `JSON.stringify`/`JSON.parse` (absent optional fields stay
absent). -/
def deepCopyComponent (c : Component) : Component :=
  { id := c.id, kind := c.kind, content := c.content, key := c.key, value := c.value }

/-- Structural clone of a component array. -/
def deepCopy (l : List Component) : List Component :=
  l.map deepCopyComponent

/-- A complete save attempt, combining the save-button guard (alert and
stop when the component list is empty) with the modal submit handler
(trim the name; silently do nothing when it is blank; otherwise append a
template built from a deep copy).  The boolean records whether an error
message was surfaced to the user. -/
def trySaveTemplate (templates : List Template) (comps : List Component)
    (rawName : List Char) (newId : Nat) : List Template × Bool :=
  if comps.length = 0 then (templates, true)
  else
    let name := trimChars rawName
    if name = [] then (templates, false)
    else (templates ++ [{ id := newId, name := name, components := deepCopy comps }], false)

/-- The modal submit handler, lifted to the application state. -/
def submitSave (st : AppState) (rawName : List Char) (newId : Nat) : AppState :=
  let name := trimChars rawName
  if name = [] then st
  else { st with templates :=
          st.templates ++ [{ id := newId, name := name, components := deepCopy st.components }] }

/-- The load-template click handler: look the template up by id and
replace the live list with a deep copy of its components. -/
def loadTemplate (st : AppState) (tid : Nat) : AppState :=
  match st.templates.find? (fun t => t.id = tid) with
  | some t => { st with components := deepCopy t.components }
  | none => st

/-- The mutations of the live component list reachable from the UI:
palette insert (drop of a new component), reorder, delete, field edit. -/
inductive EditOp where
  | insert (idx : Nat) (kind : String) (newId : Nat)
  | move (fromIdx rawTo : Nat)
  | remove (cid : Nat)
  | update (cid : Nat) (prop : String) (v : List Char)
deriving DecidableEq, Repr

/-- Apply one edit to a component list. -/
def applyEdit (l : List Component) : EditOp → List Component
  | .insert idx kind newId => spliceInsert l idx (createNewComponent kind newId)
  | .move fromIdx rawTo => moveWithinList l fromIdx rawTo
  | .remove cid => removeById l cid
  | .update cid prop v => updateField l cid prop v

/-- Apply a sequence of edits in order. -/
def applyEdits (l : List Component) (ops : List EditOp) : List Component :=
  ops.foldl applyEdit l

/-- Apply a sequence of edits to the live list inside the application
state; edits touch only the `components` field, as in the source the
corresponding handlers only reassign `state.components`. -/
def applyEditsState (st : AppState) (ops : List EditOp) : AppState :=
  ops.foldl (fun s op => { s with components := applyEdit s.components op }) st

/-- The ids of a component list, in order. -/
def idsOf (l : List Component) : List Nat :=
  l.map (fun c => c.id)

/-- Freshness of one operation against the current list: an insert's
generated id must be absent; other operations are unconstrained. -/
def freshOk (l : List Component) : EditOp → Bool
  | .insert _ _ newId => decide (newId ∉ idsOf l)
  | _ => true

/-- Freshness of the ids consumed by the inserts of an edit sequence run
from `l`: each insert's generated id is absent from the list at that
step.  `Date.now()` is supposed to provide this; nothing enforces it. -/
def freshIds : List Component → List EditOp → Bool
  | _, [] => true
  | l, op :: rest => freshOk l op && freshIds (applyEdit l op) rest

/-- Contribution of one operation to the insert count. -/
def insDelta : EditOp → Nat
  | .insert _ _ _ => 1
  | _ => 0

/-- Number of inserts in an edit sequence. -/
def insertCount : List EditOp → Nat
  | [] => 0
  | op :: rest => insDelta op + insertCount rest

/-- Contribution of one operation at list `l` to the matched-remove
count: one exactly when it is a remove whose id is present in `l`. -/
def remDelta (l : List Component) : EditOp → Nat
  | .remove cid => if cid ∈ idsOf l then 1 else 0
  | _ => 0

/-- Number of removes of an edit sequence, run from `l`, whose id matched
at least one element present at that step. -/
def matchedRemoveCount : List Component → List EditOp → Nat
  | _, [] => 0
  | l, op :: rest => remDelta l op + matchedRemoveCount (applyEdit l op) rest

/-! Helper lemmas shared between the claim theorems. -/

lemma deepCopyComponent_eq (c : Component) : deepCopyComponent c = c := rfl

lemma deepCopy_eq (l : List Component) : deepCopy l = l := by
  unfold deepCopy
  rw [show deepCopyComponent = id from funext fun c => rfl, List.map_id]

lemma applyEditsState_components (ops : List EditOp) :
    ∀ st : AppState, (applyEditsState st ops).components = applyEdits st.components ops := by
  induction ops with
  | nil => intro st; rfl
  | cons op rest ih => intro st; exact ih _

lemma applyEditsState_templates (ops : List EditOp) :
    ∀ st : AppState, (applyEditsState st ops).templates = st.templates := by
  induction ops with
  | nil => intro st; rfl
  | cons op rest ih => intro st; exact ih _

lemma createNewComponent_id (kind : String) (newId : Nat) :
    (createNewComponent kind newId).id = newId := by
  unfold createNewComponent
  split <;> try rfl
  split <;> try rfl
  split <;> rfl

lemma setProp_id (c : Component) (p : String) (v : List Char) :
    (setProp c p v).id = c.id := by
  unfold setProp
  split <;> try rfl
  split <;> try rfl
  split <;> rfl

lemma setProp_kind (c : Component) (p : String) (v : List Char) :
    (setProp c p v).kind = c.kind := by
  unfold setProp
  split <;> try rfl
  split <;> try rfl
  split <;> rfl

lemma updateField_not_found (l : List Component) (cid : Nat) (p : String) (v : List Char)
    (h : ∀ c ∈ l, c.id ≠ cid) : updateField l cid p v = l := by
  induction l with
  | nil => rfl
  | cons c rest ih =>
      unfold updateField
      rw [if_neg (h c (List.mem_cons_self c rest))]
      rw [ih fun d hd => h d (List.mem_cons_of_mem c hd)]

lemma updateField_bad_prop (l : List Component) (cid : Nat) (p : String) (v : List Char)
    (h1 : p ≠ "content") (h2 : p ≠ "key") (h3 : p ≠ "value") :
    updateField l cid p v = l := by
  induction l with
  | nil => rfl
  | cons c rest ih =>
      unfold updateField
      by_cases hc : c.id = cid
      · rw [if_pos hc, if_neg (by simp [h1, h2, h3])]
      · rw [if_neg hc, ih]

lemma insertIdx_get_eraseIdx {α : Type} :
    ∀ (l : List α) (i : Nat), (h : i < l.length) → (l.eraseIdx i).insertIdx i l[i] = l
  | _ :: _, 0, _ => rfl
  | c :: rest, i + 1, h => by
      have ih := insertIdx_get_eraseIdx rest i (by simpa using h)
      simpa [List.eraseIdx, List.insertIdx_succ_cons] using ih

/-- The normalized target index of a move. -/
def normTarget (fromIdx rawTo : Nat) : Nat :=
  if fromIdx < rawTo then rawTo - 1 else rawTo

lemma moveWithinList_eq (l : List Component) (f r : Nat) :
    moveWithinList l f r =
      if f = normTarget f r then l
      else
        match l[f]? with
        | some c => spliceInsert (l.eraseIdx f) (normTarget f r) c
        | none => l := rfl

lemma moveWithinList_of_ne (l : List Component) (f r : Nat) (hf : f < l.length)
    (hne : f ≠ normTarget f r) :
    moveWithinList l f r = spliceInsert (l.eraseIdx f) (normTarget f r) l[f] := by
  rw [moveWithinList_eq, if_neg hne, List.getElem?_eq_getElem hf]

lemma moveWithinList_noop (l : List Component) (f r : Nat) (h : f = normTarget f r) :
    moveWithinList l f r = l := by
  rw [moveWithinList_eq, if_pos h]

lemma length_eraseIdx_of_lt (l : List Component) (i : Nat) (h : i < l.length) :
    (l.eraseIdx i).length = l.length - 1 := by
  rw [List.length_eraseIdx, if_pos h]

lemma moveWithinList_perm (l : List Component) (f r : Nat) :
    (moveWithinList l f r).Perm l := by
  by_cases hg : f = normTarget f r
  · rw [moveWithinList_noop l f r hg]
  · by_cases hf : f < l.length
    · rw [moveWithinList_of_ne l f r hf hg]
      have h1 : (spliceInsert (l.eraseIdx f) (normTarget f r) l[f]).Perm
          (l[f] :: l.eraseIdx f) :=
        List.perm_insertIdx _ _ (Nat.min_le_right _ _)
      refine h1.trans ?_
      conv_rhs => rw [← List.take_append_drop f l, ← List.getElem_cons_drop l f hf]
      rw [List.eraseIdx_eq_take_drop_succ]
      exact List.perm_middle.symm
    · rw [moveWithinList_eq, if_neg hg, List.getElem?_eq_none (Nat.le_of_not_lt hf)]

/-- C1: over valid positions (the source index within the list, the raw
target index at most the length), performing the move of the drop handler
and then the inverse move — from the normalized target back to the
original position, with the raw index adjusted upward when the removal
point lies below it — restores the original list; and any move whose
normalized target equals its source index leaves the list unchanged. -/
theorem c1_move_roundtrip (l : List Component) (i j : Nat)
    (hi : i < l.length) (hj : j ≤ l.length) :
    (moveWithinList (moveWithinList l i j) (normTarget i j)
        (if normTarget i j < i then i + 1 else i) = l) ∧
    (∀ f r : Nat, f = normTarget f r → moveWithinList l f r = l) := by
  refine ⟨?_, fun f r h => moveWithinList_noop l f r h⟩
  set j2 := normTarget i j with hj2
  have hlen1 : 1 ≤ l.length := Nat.lt_of_le_of_lt (Nat.zero_le i) hi
  have hj2le : j2 ≤ l.length - 1 := by
    rw [hj2]; unfold normTarget; split <;> omega
  have hback : normTarget j2 (if j2 < i then i + 1 else i) = i := by
    unfold normTarget; split_ifs <;> omega
  by_cases heq : i = j2
  · rw [moveWithinList_noop l i j (heq.trans hj2)]
    refine moveWithinList_noop l j2 _ ?_
    rw [hback]; exact heq.symm
  · have h1 : moveWithinList l i j = spliceInsert (l.eraseIdx i) j2 l[i] :=
      moveWithinList_of_ne l i j hi heq
    have herase : (l.eraseIdx i).length = l.length - 1 := length_eraseIdx_of_lt l i hi
    have hmin : min j2 (l.eraseIdx i).length = j2 := by
      rw [herase]; exact Nat.min_eq_left hj2le
    have hL : moveWithinList l i j = (l.eraseIdx i).insertIdx j2 l[i] := by
      rw [h1]; unfold spliceInsert; rw [hmin]
    set L := (l.eraseIdx i).insertIdx j2 l[i] with hLdef
    have hj2e : j2 ≤ (l.eraseIdx i).length := by omega
    have hLlen : L.length = l.length := by
      rw [hLdef, List.length_insertIdx j2 _ hj2e]; omega
    have hLget : L[j2]? = some l[i] := by
      rw [hLdef]
      have hx : j2 < ((l.eraseIdx i).insertIdx j2 l[i]).length := by
        rw [List.length_insertIdx j2 _ hj2e]; omega
      rw [List.getElem?_eq_getElem hx, List.getElem_insertIdx_self _ _ _ hj2e]
    have hgne : j2 ≠ normTarget j2 (if j2 < i then i + 1 else i) := by
      rw [hback]; exact fun h => heq h.symm
    rw [hL]
    rw [moveWithinList_eq, if_neg hgne, hback]
    rw [hLget]
    show spliceInsert (L.eraseIdx j2) i l[i] = l
    have hLe : L.eraseIdx j2 = l.eraseIdx i := List.eraseIdx_insertIdx j2 _
    rw [hLe]
    unfold spliceInsert
    rw [herase, Nat.min_eq_left (by omega), insertIdx_get_eraseIdx l i hi]

/-- Witness for C1 at a concrete three-element list, moving the first
element to raw target 2 and back. -/
theorem c1_move_roundtrip_witness :
    moveWithinList
        (moveWithinList [{ id := 1, kind := "heading" }, { id := 2, kind := "heading" },
          { id := 3, kind := "heading" }] 0 2)
        (normTarget 0 2) (if normTarget 0 2 < 0 then 0 + 1 else 0)
      = [{ id := 1, kind := "heading" }, { id := 2, kind := "heading" },
         { id := 3, kind := "heading" }] :=
  (c1_move_roundtrip [{ id := 1, kind := "heading" }, { id := 2, kind := "heading" },
    { id := 3, kind := "heading" }] 0 2 (by decide) (by decide)).1

lemma idsOf_perm {l1 l2 : List Component} (h : l1.Perm l2) : (idsOf l1).Perm (idsOf l2) :=
  h.map _

lemma spliceInsert_perm (l : List Component) (n : Nat) (a : Component) :
    (spliceInsert l n a).Perm (a :: l) :=
  List.perm_insertIdx _ _ (Nat.min_le_right _ _)

lemma spliceInsert_length (l : List Component) (n : Nat) (a : Component) :
    (spliceInsert l n a).length = l.length + 1 :=
  (spliceInsert_perm l n a).length_eq

lemma removeById_of_not_mem (l : List Component) (cid : Nat) (h : cid ∉ idsOf l) :
    removeById l cid = l := by
  refine List.filter_eq_self.mpr fun c hc => ?_
  simp only [decide_eq_true_eq, ne_eq]
  exact fun he => h (he ▸ List.mem_map_of_mem (fun x => x.id) hc)

lemma removeById_sublist (l : List Component) (cid : Nat) :
    (idsOf (removeById l cid)).Sublist (idsOf l) :=
  (List.filter_sublist l).map _

lemma removeById_cons (c : Component) (rest : List Component) (cid : Nat) :
    removeById (c :: rest) cid =
      if c.id ≠ cid then c :: removeById rest cid else removeById rest cid := by
  unfold removeById
  rw [List.filter_cons]
  by_cases hc : c.id = cid
  · simp [hc]
  · simp [hc]

lemma removeById_length_of_mem (l : List Component) (cid : Nat)
    (hn : (idsOf l).Nodup) (h : cid ∈ idsOf l) :
    (removeById l cid).length + 1 = l.length := by
  induction l with
  | nil => simp [idsOf] at h
  | cons c rest ih =>
      simp only [idsOf, List.map_cons, List.nodup_cons] at hn
      rw [removeById_cons]
      by_cases hc : c.id = cid
      · have hrest : cid ∉ idsOf rest := hc ▸ hn.1
        rw [if_neg (by simp [hc]), removeById_of_not_mem rest cid hrest]
        simp
      · have hmem : cid ∈ idsOf rest := by
          simp only [idsOf, List.map_cons, List.mem_cons] at h
          exact h.resolve_left fun he => hc he.symm
        rw [if_pos (by simp [hc])]
        simp only [List.length_cons]
        rw [ih hn.2 hmem]

lemma updateField_idsOf (l : List Component) (cid : Nat) (p : String) (v : List Char) :
    idsOf (updateField l cid p v) = idsOf l := by
  induction l with
  | nil => rfl
  | cons c rest ih =>
      unfold updateField
      by_cases hc : c.id = cid
      · rw [if_pos hc]
        have hid : (if p = "content" ∨ p = "key" ∨ p = "value" then setProp c p v else c).id
            = c.id := by
          split
          · exact setProp_id c p v
          · rfl
        simp [idsOf, hid]
      · rw [if_neg hc]
        simp only [idsOf, List.map_cons] at ih ⊢
        rw [ih]

lemma updateField_length (l : List Component) (cid : Nat) (p : String) (v : List Char) :
    (updateField l cid p v).length = l.length := by
  have h := congrArg List.length (updateField_idsOf l cid p v)
  simpa [idsOf] using h

lemma applyEdit_step (l : List Component) (op : EditOp)
    (hn : (idsOf l).Nodup) (hf : freshOk l op = true) :
    (idsOf (applyEdit l op)).Nodup ∧
    (applyEdit l op).length + remDelta l op = l.length + insDelta op := by
  cases op with
  | insert idx kind newId =>
      have hfr : newId ∉ idsOf l := by simpa [freshOk] using hf
      constructor
      · refine ((idsOf_perm (spliceInsert_perm l idx
          (createNewComponent kind newId))).nodup_iff).mpr ?_
        simp only [idsOf, List.map_cons, List.nodup_cons, createNewComponent_id]
        exact ⟨hfr, hn⟩
      · simp [applyEdit, spliceInsert_length, remDelta, insDelta]
  | move f r =>
      constructor
      · exact ((idsOf_perm (moveWithinList_perm l f r)).nodup_iff).mpr hn
      · simp [applyEdit, (moveWithinList_perm l f r).length_eq, remDelta, insDelta]
  | remove cid =>
      constructor
      · exact (removeById_sublist l cid).nodup hn
      · by_cases hm : cid ∈ idsOf l
        · simp only [applyEdit, remDelta, insDelta, if_pos hm]
          rw [removeById_length_of_mem l cid hn hm]
          omega
        · simp only [applyEdit, remDelta, insDelta, if_neg hm]
          rw [removeById_of_not_mem l cid hm]
  | update cid p v =>
      exact ⟨(updateField_idsOf l cid p v) ▸ hn,
        by simp [applyEdit, updateField_length, remDelta, insDelta]⟩

lemma applyEdits_invariant : ∀ (ops : List EditOp) (l : List Component),
    freshIds l ops = true → (idsOf l).Nodup →
    (idsOf (applyEdits l ops)).Nodup ∧
    (applyEdits l ops).length + matchedRemoveCount l ops = l.length + insertCount ops
  | [], l, _, hn => ⟨hn, by simp [applyEdits, matchedRemoveCount, insertCount]⟩
  | op :: rest, l, hf, hn => by
      have hsplit : freshOk l op = true ∧ freshIds (applyEdit l op) rest = true := by
        simpa [freshIds, Bool.and_eq_true] using hf
      have hstep := applyEdit_step l op hn hsplit.1
      have ih := applyEdits_invariant rest (applyEdit l op) hsplit.2 hstep.1
      refine ⟨by simpa [applyEdits] using ih.1, ?_⟩
      have h2 := ih.2
      have hb := hstep.2
      show (applyEdits (applyEdit l op) rest).length + matchedRemoveCount l (op :: rest)
        = l.length + insertCount (op :: rest)
      rw [show matchedRemoveCount l (op :: rest)
            = remDelta l op + matchedRemoveCount (applyEdit l op) rest from rfl,
          show insertCount (op :: rest) = insDelta op + insertCount rest from rfl]
      omega

/-- C7 counterexample: a sequence of two palette inserts whose generated
ids collide (two `Date.now()` readings in the same millisecond), starting
from the empty list, yields the id list `[1, 1]` — the ids are not
pairwise distinct, refuting the unconditional invariant. -/
theorem c7_duplicate_ids_without_freshness :
    idsOf (applyEdits [] [EditOp.insert 0 "heading" 1, EditOp.insert 0 "heading" 1])
        = [1, 1] ∧
    ¬ (idsOf (applyEdits [] [EditOp.insert 0 "heading" 1,
        EditOp.insert 0 "heading" 1])).Nodup := by
  constructor <;> decide

/-- C7, amended: for every finite sequence of insert, move, remove-by-id
and field-update operations starting from the empty component list, under
the freshness assumption that each insert's generated id is absent from
the list at that step (what the timestamp generator is supposed to, but
does not, guarantee), the component ids remain pairwise distinct, and the
final length equals the number of inserts minus the number of removes
that matched an element. -/
theorem c7_id_and_length_invariant (ops : List EditOp)
    (h : freshIds [] ops = true) :
    (idsOf (applyEdits [] ops)).Nodup ∧
    (applyEdits [] ops).length = insertCount ops - matchedRemoveCount [] ops := by
  obtain ⟨h1, h2⟩ := applyEdits_invariant ops [] h (by simp [idsOf])
  exact ⟨h1, by simp only [List.length_nil] at h2; omega⟩

/-- Witness for C7 at a concrete operation sequence: insert two
components with distinct ids, update one, remove one, remove a missing
id. -/
theorem c7_id_and_length_invariant_witness :
    (idsOf (applyEdits [] [EditOp.insert 0 "heading" 1, EditOp.insert 1 "key-value" 2,
        EditOp.update 1 "content" "hi".data, EditOp.remove 2, EditOp.remove 99])).Nodup ∧
    (applyEdits [] [EditOp.insert 0 "heading" 1, EditOp.insert 1 "key-value" 2,
        EditOp.update 1 "content" "hi".data, EditOp.remove 2, EditOp.remove 99]).length
      = insertCount [EditOp.insert 0 "heading" 1, EditOp.insert 1 "key-value" 2,
          EditOp.update 1 "content" "hi".data, EditOp.remove 2, EditOp.remove 99]
        - matchedRemoveCount [] [EditOp.insert 0 "heading" 1, EditOp.insert 1 "key-value" 2,
            EditOp.update 1 "content" "hi".data, EditOp.remove 2, EditOp.remove 99] :=
  c7_id_and_length_invariant
    [EditOp.insert 0 "heading" 1, EditOp.insert 1 "key-value" 2,
     EditOp.update 1 "content" "hi".data, EditOp.remove 2, EditOp.remove 99] (by decide)

/-- C2 counterexample: a drop whose payload is the unrecognized non-empty
kind string `banana`, with no dragged element, is not a no-op — it
inserts a component of that kind with no content fields, so the list
after the drop differs from the list before. -/
theorem c2_unrecognized_payload_changes_list :
    handleDrop [] none "banana" none 42 ≠ [] := by decide

/-- C2, amended: a drop whose payload identifies no dragged element is a
no-op exactly when the payload is the empty string; any non-empty payload,
recognized or not, inserts the factory's component for that kind at the
placeholder position (end of list without a placeholder). -/
theorem c2_drop_payload_semantics :
    (∀ (comps : List Component) (ph : Option Nat) (newId : Nat),
        handleDrop comps none "" ph newId = comps) ∧
    (∀ (comps : List Component) (ph : Option Nat) (newId : Nat) (payload : String),
        payload ≠ "" →
        handleDrop comps none payload ph newId =
          spliceInsert comps (ph.getD comps.length) (createNewComponent payload newId)) := by
  constructor
  · intro comps ph newId
    rfl
  · intro comps ph newId payload hp
    unfold handleDrop
    rw [if_neg hp]

/-- Witness for the amended C2 theorem at concrete inputs. -/
theorem c2_drop_payload_semantics_witness :
    handleDrop [{ id := 1, kind := "heading" }] none "" none 5
        = [{ id := 1, kind := "heading" }] ∧
    handleDrop [] none "banana" none 5 = [{ id := 5, kind := "banana" }] :=
  ⟨c2_drop_payload_semantics.1 [{ id := 1, kind := "heading" }] none 5,
   (c2_drop_payload_semantics.2 [] none 5 "banana" (by decide)).trans (by decide)⟩

/-- C6: the live-list edit operations touch only the components field of
the state, so after a save (which stores a deep copy) every subsequent
insert, move, remove or field update of the live list leaves the template
store — in particular the saved template's stored components — unchanged,
and likewise after a load the store's stored copy is unchanged by edits
to the loaded live list. -/
theorem c6_template_isolation (st : AppState) (rawName : List Char) (newId tid : Nat)
    (ops : List EditOp) :
    (applyEditsState (submitSave st rawName newId) ops).templates
        = (submitSave st rawName newId).templates ∧
    (applyEditsState (loadTemplate st tid) ops).templates
        = (loadTemplate st tid).templates :=
  ⟨applyEditsState_templates ops _, applyEditsState_templates ops _⟩

/-- C8 counterexample: with one component and the name a single space,
the attempt is rejected with the store unchanged, but no error is
reported to the caller (the boolean result is false: the submit handler
returns silently on a blank trimmed name), contradicting the claim that
every rejection reports an error. -/
theorem c8_blank_name_rejected_silently :
    trySaveTemplate [] [{ id := 1, kind := "heading", content := some "t".data }]
      " ".data 7 = ([], false) := by decide

/-- C8, amended: a save attempt with an empty component list is rejected
with an error reported and the store unchanged; a save attempt with a
name that is blank after trimming is rejected silently (no error
surfaced) with the store unchanged; otherwise a template with the given
fresh id, the trimmed name and a deep copy of the component list — equal,
as a value, to the list itself — is appended to the store. -/
theorem c8_save_validation (ts : List Template) (comps : List Component)
    (rawName : List Char) (newId : Nat) :
    (comps = [] → trySaveTemplate ts comps rawName newId = (ts, true)) ∧
    (comps ≠ [] → trimChars rawName = [] →
        trySaveTemplate ts comps rawName newId = (ts, false)) ∧
    (comps ≠ [] → trimChars rawName ≠ [] →
        trySaveTemplate ts comps rawName newId =
          (ts ++ [{ id := newId, name := trimChars rawName, components := deepCopy comps }],
           false)) ∧
    deepCopy comps = comps := by
  refine ⟨fun h => ?_, fun h hb => ?_, fun h hb => ?_, deepCopy_eq comps⟩
  · subst h; rfl
  · unfold trySaveTemplate
    rw [if_neg (by simpa using h), if_pos hb]
  · unfold trySaveTemplate
    rw [if_neg (by simpa using h), if_neg hb]

/-- Witness for the amended C8 theorem at concrete inputs. -/
theorem c8_save_validation_witness :
    trySaveTemplate [] [] "My Template".data 7 = ([], true) ∧
    trySaveTemplate [] [{ id := 1, kind := "heading", content := some "t".data }]
        "  ".data 7 = ([], false) ∧
    trySaveTemplate [] [{ id := 1, kind := "heading", content := some "t".data }]
        " My Template ".data 7 =
      ([{ id := 7, name := "My Template".data,
          components := [{ id := 1, kind := "heading", content := some "t".data }] }], false) :=
  ⟨(c8_save_validation [] [] "My Template".data 7).1 rfl,
   (c8_save_validation [] [{ id := 1, kind := "heading", content := some "t".data }]
      "  ".data 7).2.1 (by decide) (by decide),
   ((c8_save_validation [] [{ id := 1, kind := "heading", content := some "t".data }]
      " My Template ".data 7).2.2.1 (by decide) (by decide)).trans (by decide)⟩

/-- C9 counterexample: the property `key` is not a content field of the
kind `heading`, so by the claim the list should be unchanged; the input
handler sets it anyway, because it never consults the component's kind. -/
theorem c9_update_ignores_kind :
    updateField [{ id := 1, kind := "heading", content := some "t".data }] 1 "key" "x".data
      ≠ [{ id := 1, kind := "heading", content := some "t".data }] := by decide

/-- C9, amended: updateField is a no-op when no component carries the id
or when the property is not one of content, key, value; when the property
is one of those three it sets that field on the first component with the
id regardless of the component's kind, preserving id and kind. -/
theorem c9_updateField_semantics :
    (∀ (l : List Component) (cid : Nat) (p : String) (v : List Char),
        (∀ c ∈ l, c.id ≠ cid) → updateField l cid p v = l) ∧
    (∀ (l : List Component) (cid : Nat) (p : String) (v : List Char),
        p ≠ "content" → p ≠ "key" → p ≠ "value" → updateField l cid p v = l) ∧
    (∀ (c : Component) (rest : List Component) (p : String) (v : List Char),
        (p = "content" ∨ p = "key" ∨ p = "value") →
        updateField (c :: rest) c.id p v = setProp c p v :: rest) ∧
    (∀ (c : Component) (p : String) (v : List Char),
        (setProp c p v).id = c.id ∧ (setProp c p v).kind = c.kind) := by
  refine ⟨updateField_not_found, updateField_bad_prop, fun c rest p v hp => ?_,
    fun c p v => ⟨setProp_id c p v, setProp_kind c p v⟩⟩
  unfold updateField
  rw [if_pos rfl, if_pos hp]

/-- Witness for the amended C9 theorem at concrete inputs. -/
theorem c9_updateField_semantics_witness :
    updateField [{ id := 1, kind := "heading", content := some "t".data }] 2
        "content" "x".data = [{ id := 1, kind := "heading", content := some "t".data }] ∧
    updateField [{ id := 1, kind := "heading", content := some "t".data }] 1
        "font" "x".data = [{ id := 1, kind := "heading", content := some "t".data }] ∧
    updateField [{ id := 1, kind := "heading", content := some "t".data }] 1
        "key" "x".data
      = [{ id := 1, kind := "heading", content := some "t".data, key := some "x".data }] :=
  ⟨c9_updateField_semantics.1 _ 2 "content" "x".data (by decide),
   c9_updateField_semantics.2.1 _ 1 "font" "x".data (by decide) (by decide) (by decide),
   (c9_updateField_semantics.2.2.1 { id := 1, kind := "heading", content := some "t".data }
      [] "key" "x".data (Or.inr (Or.inl rfl))).trans (by decide)⟩

lemma lookupVar_append_left : ∀ (vs : VarMap) (e : List Char × List Char)
    (k v : List Char), lookupVar vs k = some v → lookupVar (vs ++ [e]) k = some v
  | [], _, k, _, h => by simp [lookupVar] at h
  | (k1, v1) :: rest, e, k, v, h => by
      simp only [lookupVar] at h ⊢
      by_cases hk : k1 = k
      · rwa [if_pos hk] at h ⊢
      · rw [if_neg hk] at h ⊢
        exact lookupVar_append_left rest e k v h

lemma lookupVar_append_none : ∀ (vs : VarMap) (k2 x k : List Char),
    lookupVar vs k = none →
    lookupVar (vs ++ [(k2, x)]) k = if k2 = k then some x else none
  | [], _, _, _, _ => rfl
  | (k1, v1) :: rest, k2, x, k, h => by
      simp only [lookupVar] at h ⊢
      by_cases hk : k1 = k
      · rw [if_pos hk] at h; exact absurd h (by simp)
      · rw [if_neg hk] at h ⊢
        exact lookupVar_append_none rest k2 x k h

lemma ensureVars_mono : ∀ (names : List (List Char)) (vars : VarMap) (k v : List Char),
    lookupVar vars k = some v → lookupVar (ensureVars vars names) k = some v
  | [], _, _, _, h => h
  | n :: ns, vars, k, v, h => by
      show lookupVar (ensureVars
        (if (lookupVar vars n).isSome then vars else vars ++ [(n, [])]) ns) k = some v
      split
      · exact ensureVars_mono ns vars k v h
      · exact ensureVars_mono ns _ k v (lookupVar_append_left vars (n, []) k v h)

lemma ensureVars_default : ∀ (names : List (List Char)) (vars : VarMap) (n : List Char),
    n ∈ names → lookupVar vars n = none →
    lookupVar (ensureVars vars names) n = some []
  | [], _, _, hmem, _ => absurd hmem (List.not_mem_nil _)
  | m :: ns, vars, n, hmem, hnone => by
      show lookupVar (ensureVars
        (if (lookupVar vars m).isSome then vars else vars ++ [(m, [])]) ns) n = some []
      by_cases hnm : m = n
      · subst hnm
        rw [if_neg (by simp [hnone])]
        refine ensureVars_mono ns _ m [] ?_
        rw [lookupVar_append_none vars m [] m hnone, if_pos rfl]
      · have hmem2 : n ∈ ns := (List.mem_cons.mp hmem).resolve_left fun h => hnm h.symm
        split
        · exact ensureVars_default ns vars n hmem2 hnone
        · refine ensureVars_default ns _ n hmem2 ?_
          rw [lookupVar_append_none vars m [] n hnone, if_neg hnm]

lemma ensureVars_isSome (names : List (List Char)) (vars : VarMap) (n : List Char)
    (hmem : n ∈ names) : (lookupVar (ensureVars vars names) n).isSome := by
  cases h : lookupVar vars n with
  | some v => rw [ensureVars_mono names vars n v h]; rfl
  | none => rw [ensureVars_default names vars n hmem h]; rfl

lemma ensureVars_of_all_present : ∀ (names : List (List Char)) (vs : VarMap),
    (∀ n ∈ names, (lookupVar vs n).isSome) → ensureVars vs names = vs
  | [], _, _ => rfl
  | m :: ns, vs, h => by
      show ensureVars (if (lookupVar vs m).isSome then vs else vs ++ [(m, [])]) ns = vs
      rw [if_pos (h m (List.mem_cons_self m ns))]
      exact ensureVars_of_all_present ns vs fun n hn => h n (List.mem_cons_of_mem m hn)

/-- C10: running the variable pass a second time on unchanged component
text changes nothing — the detected name list is the same pure function
of the components, the mapping produced by the second run equals the
mapping of the first, and so does the preview; one run preserves every
previously stored value unchanged and gives every newly detected name the
empty string as its value. -/
theorem c10_detection_idempotent (comps : List Component) (vars : VarMap) :
    updatePreviewAndVariables comps (updatePreviewAndVariables comps vars).1
        = updatePreviewAndVariables comps vars ∧
    (∀ k v : List Char, lookupVar vars k = some v →
        lookupVar (updatePreviewAndVariables comps vars).1 k = some v) ∧
    (∀ n ∈ detectedVars comps, lookupVar vars n = none →
        lookupVar (updatePreviewAndVariables comps vars).1 n = some []) := by
  have hfix : ensureVars (ensureVars vars (detectedVars comps)) (detectedVars comps)
      = ensureVars vars (detectedVars comps) :=
    ensureVars_of_all_present _ _ fun n hn => ensureVars_isSome _ vars n hn
  refine ⟨?_, fun k v h => ensureVars_mono _ vars k v h,
    fun n hn h => ensureVars_default _ vars n hn h⟩
  show (ensureVars (ensureVars vars (detectedVars comps)) (detectedVars comps),
      trimChars (substituteVars
        (ensureVars (ensureVars vars (detectedVars comps)) (detectedVars comps))
        (fullText comps)))
    = (ensureVars vars (detectedVars comps),
      trimChars (substituteVars (ensureVars vars (detectedVars comps)) (fullText comps)))
  rw [hfix]

/-- Witness for C10 at a concrete component list and mapping. -/
theorem c10_detection_idempotent_witness :
    lookupVar (updatePreviewAndVariables
        [{ id := 1, kind := "heading", content := some "A [X] [Y]".data }]
        [("X".data, "old".data)]).1 "X".data = some "old".data ∧
    lookupVar (updatePreviewAndVariables
        [{ id := 1, kind := "heading", content := some "A [X] [Y]".data }]
        [("X".data, "old".data)]).1 "Y".data = some [] :=
  ⟨(c10_detection_idempotent
      [{ id := 1, kind := "heading", content := some "A [X] [Y]".data }]
      [("X".data, "old".data)]).2.1 "X".data "old".data (by decide),
   (c10_detection_idempotent
      [{ id := 1, kind := "heading", content := some "A [X] [Y]".data }]
      [("X".data, "old".data)]).2.2 "Y".data (by decide) (by decide)⟩

lemma findVarsAux_nil (f : Nat) : findVarsAux f [] = [] := by
  cases f <;> rfl

lemma findVarsAux_fuel : ∀ (f1 f2 : Nat) (t : List Char),
    t.length ≤ f1 → t.length ≤ f2 → findVarsAux f1 t = findVarsAux f2 t
  | f1, f2, [], _, _ => by rw [findVarsAux_nil, findVarsAux_nil]
  | 0, _, c :: rest, h1, _ => absurd h1 (by simp)
  | _ + 1, 0, c :: rest, _, h2 => absurd h2 (by simp)
  | f1 + 1, f2 + 1, c :: rest, h1, h2 => by
      simp only [List.length_cons, Nat.add_le_add_iff_right] at h1 h2
      show (if c = '[' then
          if rest.takeWhile isVarChar ≠ [] ∧
              (rest.drop (rest.takeWhile isVarChar).length).head? = some ']' then
            rest.takeWhile isVarChar ::
              findVarsAux f1 (rest.drop ((rest.takeWhile isVarChar).length + 1))
          else findVarsAux f1 rest
        else findVarsAux f1 rest)
        = (if c = '[' then
          if rest.takeWhile isVarChar ≠ [] ∧
              (rest.drop (rest.takeWhile isVarChar).length).head? = some ']' then
            rest.takeWhile isVarChar ::
              findVarsAux f2 (rest.drop ((rest.takeWhile isVarChar).length + 1))
          else findVarsAux f2 rest
        else findVarsAux f2 rest)
      have hd : ∀ k, (rest.drop k).length ≤ f1 ∧ (rest.drop k).length ≤ f2 := by
        intro k
        rw [List.length_drop]
        omega
      rw [findVarsAux_fuel f1 f2 rest h1 h2,
        findVarsAux_fuel f1 f2 (rest.drop ((rest.takeWhile isVarChar).length + 1))
          (hd _).1 (hd _).2]

lemma findVars_nil : findVars [] = [] := rfl

lemma findVars_cons (c : Char) (rest : List Char) :
    findVars (c :: rest) =
      if c = '[' then
        if rest.takeWhile isVarChar ≠ [] ∧
            (rest.drop (rest.takeWhile isVarChar).length).head? = some ']' then
          rest.takeWhile isVarChar ::
            findVars (rest.drop ((rest.takeWhile isVarChar).length + 1))
        else findVars rest
      else findVars rest := by
  show findVarsAux (rest.length + 1) (c :: rest) = _
  show (if c = '[' then
      if rest.takeWhile isVarChar ≠ [] ∧
          (rest.drop (rest.takeWhile isVarChar).length).head? = some ']' then
        rest.takeWhile isVarChar ::
          findVarsAux rest.length (rest.drop ((rest.takeWhile isVarChar).length + 1))
      else findVarsAux rest.length rest
    else findVarsAux rest.length rest) = _
  rw [findVarsAux_fuel rest.length (rest.drop ((rest.takeWhile isVarChar).length + 1)).length
      (rest.drop ((rest.takeWhile isVarChar).length + 1))
      (by rw [List.length_drop]; omega) le_rfl]
  rfl

lemma takeWhile_append_of_break {p : Char → Bool} :
    ∀ (a b : List Char), (∃ x ∈ a, p x = false) →
    (a ++ b).takeWhile p = a.takeWhile p
  | [], _, h => absurd h (by simp)
  | c :: a1, b, h => by
      by_cases hc : p c
      · have h1 : ∃ x ∈ a1, p x = false := by
          obtain ⟨x, hx, hpx⟩ := h
          rcases List.mem_cons.mp hx with he | hm
          · exact absurd (he ▸ hc) (by simp [hpx])
          · exact ⟨x, hm, hpx⟩
        simp only [List.cons_append, List.takeWhile_cons, hc, if_true]
        rw [takeWhile_append_of_break a1 b h1]
      · simp only [List.cons_append, List.takeWhile_cons,
          Bool.not_eq_true] at hc ⊢
        rw [hc]
        simp

lemma length_takeWhile_lt_of_break {p : Char → Bool} :
    ∀ (a : List Char), (∃ x ∈ a, p x = false) →
    (a.takeWhile p).length < a.length
  | [], h => absurd h (by simp)
  | c :: a1, h => by
      by_cases hc : p c
      · have h1 : ∃ x ∈ a1, p x = false := by
          obtain ⟨x, hx, hpx⟩ := h
          rcases List.mem_cons.mp hx with he | hm
          · exact absurd (he ▸ hc) (by simp [hpx])
          · exact ⟨x, hm, hpx⟩
        simp only [List.takeWhile_cons, hc, if_true, List.length_cons]
        exact Nat.succ_lt_succ (length_takeWhile_lt_of_break a1 h1)
      · simp only [Bool.not_eq_true] at hc
        simp [List.takeWhile_cons, hc]

lemma head?_append_of_ne_nil {l l2 : List Char} (h : l ≠ []) :
    (l ++ l2).head? = l.head? := by
  cases l with
  | nil => exact absurd rfl h
  | cons c rest => rfl

lemma getLast?_mem {a : List Char} {c : Char} (h : a.getLast? = some c) : c ∈ a := by
  have hx : c ∈ a.getLast? := by rw [Option.mem_def, h]
  obtain ⟨hne, he⟩ := List.mem_getLast?_eq_getLast hx
  rw [he]
  exact List.getLast_mem hne

lemma getLast?_drop {a : List Char} {c : Char} (h : a.getLast? = some c) (k : Nat) :
    a.drop k = [] ∨ (a.drop k).getLast? = some c := by
  by_cases hd : a.drop k = []
  · exact Or.inl hd
  · refine Or.inr ?_
    conv at h => rw [← List.take_append_drop k a]
    rw [List.getLast?_append] at h
    cases hdl : (a.drop k).getLast? with
    | some d => rw [hdl] at h; simpa using h
    | none => exact absurd (List.getLast?_eq_none_iff.mp hdl) hd

lemma endsNL_cons {c : Char} {a : List Char} (ha : a ≠ [])
    (h : (c :: a).getLast? = some '\n') : a.getLast? = some '\n' := by
  cases a with
  | nil => exact absurd rfl ha
  | cons b t => rwa [List.getLast?_cons_cons] at h

lemma findVars_append : ∀ (a b : List Char), (a = [] ∨ a.getLast? = some '\n') →
    findVars (a ++ b) = findVars a ++ findVars b
  | [], b, _ => by rw [findVars_nil]; rfl
  | c :: a1, b, h => by
      have hlast : (c :: a1).getLast? = some '\n' :=
        h.resolve_left (by simp)
      by_cases ha1 : a1 = []
      · subst ha1
        have hc : c = '\n' := by simpa using hlast
        subst hc
        rw [List.cons_append, findVars_cons, if_neg (by decide), findVars_cons,
          if_neg (by decide), findVars_nil]
        rfl
      · have hlast1 : a1.getLast? = some '\n' := endsNL_cons ha1 hlast
        have hbrk : ∃ x ∈ a1, isVarChar x = false :=
          ⟨'\n', getLast?_mem hlast1, by decide⟩
        have htw : (a1 ++ b).takeWhile isVarChar = a1.takeWhile isVarChar :=
          takeWhile_append_of_break a1 b hbrk
        have hklt : (a1.takeWhile isVarChar).length < a1.length :=
          length_takeWhile_lt_of_break a1 hbrk
        rw [List.cons_append, findVars_cons, findVars_cons, htw]
        by_cases hc : c = '['
        · rw [if_pos hc, if_pos hc]
          have hdropA : (a1 ++ b).drop (a1.takeWhile isVarChar).length
              = a1.drop (a1.takeWhile isVarChar).length ++ b :=
            List.drop_append_of_le_length (Nat.le_of_lt hklt)
          have hdne : a1.drop (a1.takeWhile isVarChar).length ≠ [] := by
            intro hnil
            have := congrArg List.length hnil
            rw [List.length_drop] at this
            simp at this
            omega
          have hhead : ((a1 ++ b).drop (a1.takeWhile isVarChar).length).head?
              = (a1.drop (a1.takeWhile isVarChar).length).head? := by
            rw [hdropA]
            exact head?_append_of_ne_nil hdne
          rw [hhead]
          by_cases hcond : a1.takeWhile isVarChar ≠ [] ∧
              (a1.drop (a1.takeWhile isVarChar).length).head? = some ']'
          · rw [if_pos hcond, if_pos hcond]
            have hdropB : (a1 ++ b).drop ((a1.takeWhile isVarChar).length + 1)
                = a1.drop ((a1.takeWhile isVarChar).length + 1) ++ b :=
              List.drop_append_of_le_length hklt
            rw [hdropB,
              findVars_append (a1.drop ((a1.takeWhile isVarChar).length + 1)) b
                (getLast?_drop hlast1 _ |>.imp_right id),
              List.cons_append]
          · rw [if_neg hcond, if_neg hcond,
              findVars_append a1 b (Or.inr hlast1)]
        · rw [if_neg hc, if_neg hc, findVars_append a1 b (Or.inr hlast1)]
termination_by a _ _ => a.length
decreasing_by
  · simp only [List.length_cons, List.length_drop]
    omega
  · simp only [List.length_cons]
    omega
  · simp only [List.length_cons]
    omega

lemma renderComponent_endsNL (c : Component) :
    renderComponent c = [] ∨ (renderComponent c).getLast? = some '\n' := by
  unfold renderComponent
  split_ifs
  · refine Or.inr ?_
    simp only [List.getLast?_append]
    rfl
  · refine Or.inr ?_
    simp only [List.getLast?_append]
    rfl
  · refine Or.inr ?_
    simp only [List.getLast?_append]
    rfl
  · exact Or.inl rfl

lemma scanComponents_matches : ∀ comps : List Component,
    (scanComponents comps).2 = findVars (fullText comps)
  | [] => rfl
  | c :: rest => by
      show findVars (renderComponent c) ++ (scanComponents rest).2
        = findVars (renderComponent c ++ (scanComponents rest).1)
      rw [findVars_append (renderComponent c) _ (renderComponent_endsNL c),
        scanComponents_matches rest]
      rfl

lemma insertOnce_nodup (acc : List (List Char)) (x : List Char) (h : acc.Nodup) :
    (insertOnce acc x).Nodup := by
  unfold insertOnce
  split
  · exact h
  · rename_i hx
    rw [List.nodup_append]
    refine ⟨h, List.nodup_singleton x, fun a ha hb => ?_⟩
    rw [List.mem_singleton] at hb
    exact hx (hb ▸ ha)

lemma foldl_insertOnce_nodup : ∀ (l acc : List (List Char)), acc.Nodup →
    (l.foldl insertOnce acc).Nodup
  | [], _, h => h
  | x :: l1, acc, h => foldl_insertOnce_nodup l1 (insertOnce acc x) (insertOnce_nodup acc x h)

lemma mem_foldl_insertOnce : ∀ (l acc : List (List Char)) (x : List Char),
    x ∈ l.foldl insertOnce acc → x ∈ acc ∨ x ∈ l
  | [], _, _, h => Or.inl h
  | y :: l1, acc, x, h => by
      rcases mem_foldl_insertOnce l1 (insertOnce acc y) x h with hi | hl
      · unfold insertOnce at hi
        split at hi
        · exact Or.inl hi
        · rcases List.mem_append.mp hi with ha | hy
          · exact Or.inl ha
          · exact Or.inr (List.mem_cons.mpr (Or.inl (by simpa using hy)))
      · exact Or.inr (List.mem_cons_of_mem y hl)

lemma findVarsAux_wf : ∀ (fuel : Nat) (t : List Char) (n : List Char),
    n ∈ findVarsAux fuel t → n ≠ [] ∧ ∀ ch ∈ n, isVarChar ch = true
  | 0, _, _, h => absurd h (by simp [findVarsAux])
  | _ + 1, [], _, h => absurd h (by simp [findVarsAux])
  | fuel + 1, c :: rest, n, h => by
      by_cases hc : c = '['
      · simp only [findVarsAux, hc, if_true] at h
        split at h
        · rename_i hcond
          rcases List.mem_cons.mp h with he | hm
          · subst he
            exact ⟨hcond.1, fun ch hch => List.mem_takeWhile_imp hch⟩
          · exact findVarsAux_wf fuel _ n hm
        · exact findVarsAux_wf fuel rest n h
      · simp only [findVarsAux, hc, if_false] at h
        exact findVarsAux_wf fuel rest n h

/-- C4: the detected variable list equals the distinct regex matches of
the concatenated rendered text, in order of first appearance — the
per-component scan of the source coincides with a scan of the whole text
because every rendered component ends in a newline, so no match spans a
component boundary; the result has no duplicates, every reported name is
a non-empty string of uppercase letters and underscores, and a lowercase
token such as the bracketed word value is never detected. -/
theorem c4_variable_detection :
    (∀ comps : List Component,
        detectedVars comps = dedupFirst (findVars (fullText comps))) ∧
    (∀ comps : List Component, (detectedVars comps).Nodup) ∧
    (∀ (comps : List Component) (n : List Char), n ∈ detectedVars comps →
        n ≠ [] ∧ ∀ ch ∈ n, isVarChar ch = true) ∧
    detectedVars
        [{ id := 1, kind := "text-block", content := some "use [value] and [TOPIC]".data }]
      = ["TOPIC".data] := by
  refine ⟨fun comps => ?_, fun comps => foldl_insertOnce_nodup _ [] List.nodup_nil,
    fun comps n hn => ?_, by decide⟩
  · unfold detectedVars dedupFirst
    rw [scanComponents_matches]
  · have hm : n ∈ (scanComponents comps).2 :=
      (mem_foldl_insertOnce _ [] n hn).resolve_left (List.not_mem_nil n)
    rw [scanComponents_matches comps] at hm
    exact findVarsAux_wf _ _ n hm

/-- Witness for C4 at a concrete component list containing an uppercase
token, a lowercase token and a repeated token. -/
theorem c4_variable_detection_witness :
    detectedVars [{ id := 1, kind := "heading", content := some "[B] [a] [B] [A]".data }]
        = dedupFirst (findVars (fullText
            [{ id := 1, kind := "heading", content := some "[B] [a] [B] [A]".data }])) ∧
    ("B".data ≠ [] ∧ ∀ ch ∈ "B".data, isVarChar ch = true) :=
  ⟨c4_variable_detection.1
      [{ id := 1, kind := "heading", content := some "[B] [a] [B] [A]".data }],
   c4_variable_detection.2.2.1
      [{ id := 1, kind := "heading", content := some "[B] [a] [B] [A]".data }]
      "B".data (by decide)⟩

lemma fullText_flatten : ∀ comps : List Component,
    fullText comps = (comps.map renderComponent).flatten
  | [] => rfl
  | c :: rest => by
      show renderComponent c ++ fullText rest = _
      rw [List.map_cons, List.flatten_cons, fullText_flatten rest]

/-- C5: the preview equals the concatenation, in list order, of each
component's rendering — heading as hash-space plus content and a blank
line, text-block as content and a blank line, key-value as key,
colon-space, value and one newline — with the substitution pass applied
over the (defaulted) stored mapping and leading and trailing whitespace
trimmed; concretely, a single heading whose content is the text Topic
followed by the bracketed TOPIC token, with TOPIC stored as Rust, renders
to the heading line with Rust substituted. -/
theorem c5_preview_rendering :
    (∀ (i : Nat) (s : List Char) (k v : Option (List Char)),
        renderComponent { id := i, kind := "heading", content := some s, key := k, value := v }
          = "# ".data ++ s ++ "\n\n".data) ∧
    (∀ (i : Nat) (s : List Char) (k v : Option (List Char)),
        renderComponent { id := i, kind := "text-block", content := some s, key := k, value := v }
          = s ++ "\n\n".data) ∧
    (∀ (i : Nat) (c : Option (List Char)) (k v : List Char),
        renderComponent
            { id := i, kind := "key-value", content := c, key := some k, value := some v }
          = k ++ ": ".data ++ v ++ "\n".data) ∧
    (∀ (comps : List Component) (vars : VarMap),
        (updatePreviewAndVariables comps vars).2
          = trimChars (substituteVars (ensureVars vars (detectedVars comps))
              ((comps.map renderComponent).flatten))) ∧
    (updatePreviewAndVariables
        [{ id := 1, kind := "heading", content := some "Topic: [TOPIC]".data }]
        [("TOPIC".data, "Rust".data)]).2 = "# Topic: Rust".data := by
  refine ⟨fun i s k v => rfl, fun i s k v => rfl, fun i c k v => rfl,
    fun comps vars => ?_, by decide⟩
  show trimChars (substituteVars (ensureVars vars (detectedVars comps)) (fullText comps)) = _
  rw [fullText_flatten]

end PromptBuilder
